import Mathlib

/-!
Verification of the key-set synchronization core of `git-xltrail.py`.

The filesystem is modelled as a partial map from path strings to file
contents; a file's contents are its list of characters. `update_git_file`,
`delete_git_file`, `install` and `uninstall` are translated line-by-line
from `src/git-xltrail.py`. Python's `'\n'.join` / `split('\n')` pair is
modelled by `joinNl` / `splitNl` on character lists, and Python's
`sorted(list(set(...)))` by `List.insertionSort strRel` of the deduplicated
list (the sorted list of the distinct elements, which is what Python
produces regardless of set iteration order).
-/

namespace GitXltrail

/-- A filesystem: each path is either absent (`none`) or holds file contents
given as a character list. -/
def FS : Type := String → Option (List Char)

/-- The two operations accepted by `update_git_file` (its `operation`
argument, asserted to be `'SET'` or `'REMOVE'`). -/
inductive Op : Type
  | SET : Op
  | REMOVE : Op
deriving DecidableEq

/-- Python's `'\n'.join(content)`: intercalate a newline between the pieces,
with no trailing separator after the last piece. -/
def joinNl : List (List Char) → List Char
  | [] => []
  | [l] => l
  | l :: l2 :: ls => l ++ '\n' :: joinNl (l2 :: ls)

/-- Prepend a character to the first piece of a split (helper for
`splitNl`). -/
def consHead (c : Char) : List (List Char) → List (List Char)
  | [] => [[c]]
  | l :: ls => (c :: l) :: ls

/-- Python's `s.split('\n')`: split a character list at every newline.
`splitNl [] = [[]]`, matching `''.split('\n') == ['']`. -/
def splitNl : List Char → List (List Char)
  | [] => [[]]
  | c :: cs => if c = '\n' then [] :: splitNl cs else consHead c (splitNl cs)

/-- Lexicographic (code-point) comparison of character lists, the ordering
Python uses on strings: `charListLe as bs` is `≤` on the lists. -/
def charListLe : List Char → List Char → Bool
  | [], _ => true
  | _ :: _, [] => false
  | a :: as, b :: bs => if a = b then charListLe as bs else decide (a < b)

/-- Python's `a <= b` on strings: code-point lexicographic order. -/
def strLe (a b : String) : Bool := charListLe a.data b.data

/-- The ordering used for `sorted(...)`, as a relation. -/
def strRel : String → String → Prop := fun a b => strLe a b = true

instance : DecidableRel strRel :=
  fun a b => inferInstanceAs (Decidable (strLe a b = true))

/-- `[line for line in f.read().split('\n') if line]` applied to the result
of reading `path`, with a missing file treated as no lines
(`os.path.exists` guard in the source). -/
def readLines (fs : FS) (path : String) : List String :=
  match fs path with
  | none => []
  | some cs => ((splitNl cs).map String.mk).filter (fun s => s ≠ "")

/-- Overwrite (or create) `path` with one entry per line,
`f.writelines('\n'.join(content))` in the source. -/
def writeFile (fs : FS) (path : String) (content : List String) : FS :=
  fun q => if q = path then some (joinNl (content.map String.data)) else fs q

/-- The in-memory transformation of `update_git_file`: for `SET`, the sorted
union `sorted(list(set(content).union(set(keys))))` (the sorted list of the
distinct elements of `content ++ keys`); for `REMOVE`, the order-preserving
filter `[line for line in content if line and line not in keys]`. -/
def newContentOf (content keys : List String) : Op → List String
  | Op.SET => List.insertionSort strRel ((content ++ keys).dedup)
  | Op.REMOVE => content.filter (fun line => decide (line ≠ "" ∧ line ∉ keys))

/-- `Installer.update_git_file(path, keys, operation)`: read the non-empty
lines of `path`, transform them with `newContentOf`, write the result back
only when it is non-empty (the `if content:` guard), and return the result.
Note the function itself never deletes `path`. -/
def update_git_file (fs : FS) (path : String) (keys : List String) (op : Op) :
    FS × List String :=
  let newContent := newContentOf (readLines fs path) keys op
  if newContent = [] then (fs, newContent)
  else (writeFile fs path newContent, newContent)

/-- `Installer.delete_git_file(path)`: remove the file if it exists. -/
def delete_git_file (fs : FS) (path : String) : FS :=
  fun q => if q = path then none else fs q

/-- The fixed extension list from the source, including the two tokens
produced by the missing commas in the Python literal
(`'dotm' 'ppt'` and `'ppa' 'pptm'` concatenate). -/
def FILE_EXTENSIONS : List String :=
  ["xls", "xlt", "xla", "xlam", "xlsx", "xlsm", "xlsb", "xltx", "xltm",
   "doc", "docm", "dotmppt", "ppapptm", "potm", "ppsm", "ppam"]

/-- `['*.' + file_ext + ' diff=xltrail' for file_ext in FILE_EXTENSIONS]`. -/
def GIT_ATTRIBUTES : List String :=
  FILE_EXTENSIONS.map (fun file_ext => "*." ++ file_ext ++ " diff=xltrail")

/-- `['~$*.' + file_ext for file_ext in FILE_EXTENSIONS]`. -/
def GIT_IGNORE : List String :=
  FILE_EXTENSIONS.map (fun file_ext => "~$*." ++ file_ext)

/-- The file effects of `Installer.install`: `SET` the attributes ruleset on
the attributes path, then `SET` the ignore ruleset on the ignore path.
The surrounding `git config` calls touch no files modelled here. -/
def install (fs : FS) (attrPath ignorePath : String) : FS :=
  (update_git_file (update_git_file fs attrPath GIT_ATTRIBUTES Op.SET).1
    ignorePath GIT_IGNORE Op.SET).1

/-- One uninstall step: `update_git_file(p, keys, REMOVE)` followed by the
caller-side `delete_git_file(del)` when the returned set is empty (the
`if not keys: ... delete_git_file(...)` pattern of `Installer.uninstall`). -/
def postRemoveStep (fs : FS) (p del : String) (keys : List String) : FS :=
  if (update_git_file fs p keys Op.REMOVE).2 = []
  then delete_git_file (update_git_file fs p keys Op.REMOVE).1 del
  else (update_git_file fs p keys Op.REMOVE).1

/-- The file effects of `Installer.uninstall`: `REMOVE` the attributes
ruleset from the attributes path, deleting that file when the result is
empty; then `REMOVE` the ignore ruleset — invoked, as in source line 92,
against the attributes path — deleting the ignore path when that result
is empty. -/
def uninstall (fs : FS) (attrPath ignorePath : String) : FS :=
  postRemoveStep (postRemoveStep fs attrPath attrPath GIT_ATTRIBUTES)
    attrPath ignorePath GIT_IGNORE

/-- The spec's `Remove` operation: `update_git_file` with `REMOVE`, followed
by the caller-side deletion of the file (at the same path) when the
resulting set is empty. -/
def removeOp (fs : FS) (path : String) (keys : List String) : FS × List String :=
  (postRemoveStep fs path path keys, (update_git_file fs path keys Op.REMOVE).2)

/-- The spec's `Apply` operation: `update_git_file` with `SET`. -/
def applyOp (fs : FS) (path : String) (keys : List String) : FS × List String :=
  update_git_file fs path keys Op.SET

/-- Python truthiness of the constructor's `path` argument: `None` and the
empty string are falsy. -/
def pathTruthy : Option String → Bool
  | none => false
  | some s => s ≠ ""

/-- The argument validation of `Installer.__init__` (source lines 39-47):
`true` exactly when one of the three `raise ValueError` branches fires,
checked in source order. `isRepo` models the external
`is_git_repository` call. -/
def installerInitRaises (mode : String) (path : Option String)
    (isRepo : String → Bool) : Bool :=
  if mode = "global" ∧ pathTruthy path then true
  else if mode = "local" ∧ ¬pathTruthy path then true
  else if mode = "local" ∧ ¬isRepo (path.getD "") then true
  else false

/-- The spec's file invariant at a path: if the file exists, its lines
(the pieces of the split at newlines) are pairwise distinct and none is
empty. -/
def fileInv (fs : FS) (p : String) : Prop :=
  ∀ cs, fs p = some cs → (splitNl cs).Nodup ∧ ∀ l ∈ splitNl cs, l ≠ []

/-- A synchronization operation as the installer invokes it: `SET` is
`update_git_file` alone, `REMOVE` is `update_git_file` followed by the
caller-side deletion on an empty result. -/
def syncOp (fs : FS) (p : String) (keys : List String) : Op → FS × List String
  | Op.SET => update_git_file fs p keys Op.SET
  | Op.REMOVE => removeOp fs p keys

/-- The empty filesystem. -/
def fsEmpty : FS := fun _ => none

/-- A filesystem whose only file is `"p"` with contents `"a"`. -/
def fsC2 : FS := fun q => if q = "p" then some ['a'] else none

/-- A filesystem whose only file is `"w2"` with contents `"a"`. -/
def fsC2w : FS := fun q => if q = "w2" then some ['a'] else none

/-- A filesystem whose only file is `"p4"` with contents `"b\na\nc"`. -/
def fsC4 : FS := fun q => if q = "p4" then some ['b', '\n', 'a', '\n', 'c'] else none

/-- A filesystem whose only file is `"q6"` with contents `"b"`. -/
def fsC6 : FS := fun q => if q = "q6" then some ['b'] else none

/-- A filesystem whose only file is `"w6"` with contents `"keep\ngone"`. -/
def fsC6w : FS :=
  fun q => if q = "w6" then some ['k', 'e', 'e', 'p', '\n', 'g', 'o', 'n', 'e'] else none

/-! ## The comparator agrees with lexicographic string order -/

theorem charListLe_iff_lex_or_eq : ∀ as bs : List Char,
    charListLe as bs = true ↔ (List.Lex (· < ·) as bs ∨ as = bs) := by
  intro as
  induction as with
  | nil =>
    intro bs
    cases bs with
    | nil => simp [charListLe]
    | cons b bs => simp [charListLe, List.Lex.nil]
  | cons a as ih =>
    intro bs
    cases bs with
    | nil => simp [charListLe]
    | cons b bs =>
      by_cases h : a = b
      · subst h
        simp [charListLe, ih bs, List.Lex.cons_iff]
      · simp only [charListLe, if_neg h, decide_eq_true_eq]
        constructor
        · intro hab
          exact Or.inl (List.Lex.rel hab)
        · intro hor
          rcases hor with hl | he
          · cases hl with
            | cons h2 => exact absurd rfl h
            | rel h2 => exact h2
          · simp [List.cons.injEq] at he
            exact absurd he.1 h

theorem lex_data_iff_lt (a b : String) : List.Lex (· < ·) a.data b.data ↔ a < b := by
  rw [String.lt_iff_toList_lt]
  show List.Lex (· < ·) a.data b.data ↔ List.Lex (· < ·) a.toList b.toList
  rfl

theorem strLe_iff_le (a b : String) : strLe a b = true ↔ a ≤ b := by
  rw [strLe, charListLe_iff_lex_or_eq, lex_data_iff_lt, le_iff_lt_or_eq]
  constructor
  · intro h
    rcases h with h | h
    · exact Or.inl h
    · exact Or.inr (by cases a; cases b; simp_all)
  · intro h
    rcases h with h | h
    · exact Or.inl h
    · exact Or.inr (by cases h; rfl)

theorem strRel_iff_le (a b : String) : strRel a b ↔ a ≤ b := strLe_iff_le a b

/-! ## Round-trip facts about `splitNl` and `joinNl` -/

theorem splitNl_ne_nil : ∀ cs : List Char, splitNl cs ≠ [] := by
  intro cs
  induction cs with
  | nil => simp [splitNl]
  | cons c cs ih =>
    simp only [splitNl]
    split
    · simp
    · cases hs : splitNl cs with
      | nil => exact absurd hs ih
      | cons h t => simp [consHead]

theorem no_newline_of_mem_splitNl :
    ∀ cs : List Char, ∀ l ∈ splitNl cs, '\n' ∉ l := by
  intro cs
  induction cs with
  | nil =>
    intro l hl
    simp [splitNl] at hl
    simp [hl]
  | cons c cs ih =>
    intro l hl
    simp only [splitNl] at hl
    by_cases hc : c = '\n'
    · rw [if_pos hc] at hl
      rcases List.mem_cons.mp hl with h | h
      · simp [h]
      · exact ih l h
    · rw [if_neg hc] at hl
      cases hs : splitNl cs with
      | nil => exact absurd hs (splitNl_ne_nil cs)
      | cons h t =>
        rw [hs] at hl
        rcases List.mem_cons.mp hl with h2 | h2
        · subst h2
          intro hmem
          rcases List.mem_cons.mp hmem with h3 | h3
          · exact hc h3.symm
          · exact ih h (by rw [hs]; exact List.mem_cons_self h t) h3
        · exact ih l (by rw [hs]; exact List.mem_cons_of_mem h h2)

theorem splitNl_append (l : List Char) (rest : List Char) (h : List Char)
    (t : List (List Char))
    (hnl : '\n' ∉ l) (hrest : splitNl rest = h :: t) :
    splitNl (l ++ rest) = (l ++ h) :: t := by
  induction l with
  | nil => simpa using hrest
  | cons c l ih =>
    have hc : c ≠ '\n' := fun he => hnl (he ▸ List.mem_cons_self c l)
    have hl : '\n' ∉ l := fun hm => hnl (List.mem_cons_of_mem c hm)
    simp only [List.cons_append, splitNl, if_neg hc, List.append_eq, ih hl, consHead]

theorem splitNl_joinNl : ∀ ls : List (List Char), ls ≠ [] →
    (∀ l ∈ ls, '\n' ∉ l) → splitNl (joinNl ls) = ls := by
  intro ls
  induction ls with
  | nil => intro h; exact absurd rfl h
  | cons l ls ih =>
    intro _ hnl
    cases ls with
    | nil =>
      have h1 : splitNl (l ++ []) = (l ++ []) :: [] :=
        splitNl_append l [] [] [] (hnl l (List.mem_cons_self l [])) rfl
      simpa [joinNl] using h1
    | cons l2 ls2 =>
      have hrec : splitNl (joinNl (l2 :: ls2)) = l2 :: ls2 :=
        ih (by simp) (fun x hx => hnl x (List.mem_cons_of_mem l hx))
      have hstep : splitNl ('\n' :: joinNl (l2 :: ls2)) = [] :: l2 :: ls2 := by
        simp [splitNl, hrec]
      have h1 : splitNl (l ++ '\n' :: joinNl (l2 :: ls2)) = (l ++ []) :: l2 :: ls2 :=
        splitNl_append l _ [] (l2 :: ls2) (hnl l (List.mem_cons_self l _)) hstep
      simpa [joinNl] using h1

/-! ## Order-relation facts for `strRel` -/

theorem isTotal_strRel : IsTotal String strRel :=
  ⟨fun a b => (le_total a b).imp (strRel_iff_le a b).mpr (strRel_iff_le b a).mpr⟩

theorem isTrans_strRel : IsTrans String strRel :=
  ⟨fun a b c hab hbc => (strRel_iff_le a c).mpr
    (le_trans ((strRel_iff_le a b).mp hab) ((strRel_iff_le b c).mp hbc))⟩

theorem isAntisymm_strRel : IsAntisymm String strRel :=
  ⟨fun a b hab hba =>
    le_antisymm ((strRel_iff_le a b).mp hab) ((strRel_iff_le b a).mp hba)⟩

/-! ## Facts about `readLines`, `writeFile` and `delete_git_file` -/

theorem readLines_none (fs : FS) (p : String) (h : fs p = none) :
    readLines fs p = [] := by
  simp [readLines, h]

theorem mk_eq_empty_iff (l : List Char) : String.mk l = "" ↔ l = [] :=
  ⟨fun h => congrArg String.data h, fun h => by rw [h]⟩

theorem ne_empty_of_mem_readLines (fs : FS) (p : String) :
    ∀ s ∈ readLines fs p, s ≠ "" := by
  intro s hs
  unfold readLines at hs
  cases h : fs p with
  | none => rw [h] at hs; simp at hs
  | some cs =>
    rw [h] at hs
    have := List.of_mem_filter hs
    simpa using this

theorem no_newline_of_mem_readLines (fs : FS) (p : String) :
    ∀ s ∈ readLines fs p, '\n' ∉ s.data := by
  intro s hs
  unfold readLines at hs
  cases h : fs p with
  | none => rw [h] at hs; simp at hs
  | some cs =>
    rw [h] at hs
    have hmem := List.mem_of_mem_filter hs
    rcases List.mem_map.mp hmem with ⟨l, hl, rfl⟩
    exact no_newline_of_mem_splitNl cs l hl

theorem writeFile_at (fs : FS) (p : String) (r : List String) :
    writeFile fs p r p = some (joinNl (r.map String.data)) := by
  simp [writeFile]

theorem writeFile_other (fs : FS) (p q : String) (r : List String) (hq : q ≠ p) :
    writeFile fs p r q = fs q := by
  simp [writeFile, hq]

theorem delete_at (fs : FS) (p : String) : delete_git_file fs p p = none := by
  simp [delete_git_file]

theorem delete_other (fs : FS) (p q : String) (hq : q ≠ p) :
    delete_git_file fs p q = fs q := by
  simp [delete_git_file, hq]

theorem readLines_some (fs : FS) (p : String) (cs : List Char)
    (h : fs p = some cs) :
    readLines fs p = ((splitNl cs).map String.mk).filter (fun s => decide (s ≠ "")) := by
  unfold readLines
  rw [h]

theorem readLines_writeFile (fs : FS) (p : String) (r : List String)
    (hne : r ≠ []) (hr : ∀ s ∈ r, s ≠ "" ∧ '\n' ∉ s.data) :
    readLines (writeFile fs p r) p = r := by
  rw [readLines_some _ _ _ (writeFile_at fs p r)]
  rw [splitNl_joinNl (r.map String.data) (by simpa using hne)
    (by
      intro l hl
      rcases List.mem_map.mp hl with ⟨s, hs, rfl⟩
      exact (hr s hs).2)]
  rw [List.map_map]
  have hid : (String.mk ∘ String.data) = id := funext fun s => rfl
  rw [hid, List.map_id]
  rw [List.filter_eq_self]
  intro s hs
  simpa using (hr s hs).1

/-! ## Facts about `update_git_file` -/

theorem update_snd (fs : FS) (p : String) (keys : List String) (op : Op) :
    (update_git_file fs p keys op).2 = newContentOf (readLines fs p) keys op := by
  by_cases h : newContentOf (readLines fs p) keys op = [] <;>
    simp [update_git_file, h]

theorem update_fst_of_nil (fs : FS) (p : String) (keys : List String) (op : Op)
    (h : newContentOf (readLines fs p) keys op = []) :
    (update_git_file fs p keys op).1 = fs := by
  simp [update_git_file, h]

theorem update_fst_of_ne_nil (fs : FS) (p : String) (keys : List String) (op : Op)
    (h : newContentOf (readLines fs p) keys op ≠ []) :
    (update_git_file fs p keys op).1 =
      writeFile fs p (newContentOf (readLines fs p) keys op) := by
  simp [update_git_file, h]

theorem update_other (fs : FS) (p q : String) (keys : List String) (op : Op)
    (hq : q ≠ p) : (update_git_file fs p keys op).1 q = fs q := by
  by_cases h : newContentOf (readLines fs p) keys op = [] <;>
    simp [update_git_file, h, writeFile, hq]

/-! ## Facts about `newContentOf` -/

theorem mem_newContent_set (c keys : List String) (s : String) :
    s ∈ newContentOf c keys Op.SET ↔ s ∈ c ∨ s ∈ keys := by
  simp [newContentOf, List.mem_insertionSort, List.mem_dedup]

theorem nodup_newContent_set (c keys : List String) :
    (newContentOf c keys Op.SET).Nodup := by
  unfold newContentOf
  rw [(List.perm_insertionSort strRel _).nodup_iff]
  exact List.nodup_dedup _

theorem sorted_newContent_set (c keys : List String) :
    List.Sorted strRel (newContentOf c keys Op.SET) := by
  haveI := isTotal_strRel
  haveI := isTrans_strRel
  exact List.sorted_insertionSort strRel _

theorem sorted_lt_newContent_set (c keys : List String) :
    List.Sorted (· < ·) (newContentOf c keys Op.SET) := by
  have hle : List.Sorted (· ≤ ·) (newContentOf c keys Op.SET) :=
    (sorted_newContent_set c keys).imp (fun h => (strRel_iff_le _ _).mp h)
  exact hle.lt_of_le (nodup_newContent_set c keys)

theorem newContent_set_ne_nil (c keys : List String) (hk : keys ≠ []) :
    newContentOf c keys Op.SET ≠ [] := by
  intro h
  rcases List.exists_mem_of_ne_nil keys hk with ⟨k, hkmem⟩
  have hmem : k ∈ newContentOf c keys Op.SET :=
    (mem_newContent_set c keys k).mpr (Or.inr hkmem)
  rw [h] at hmem
  simp at hmem

theorem newContent_remove_eq_filter (c keys : List String)
    (hc : ∀ s ∈ c, s ≠ "") :
    newContentOf c keys Op.REMOVE = c.filter (fun line => decide (line ∉ keys)) := by
  unfold newContentOf
  apply List.filter_congr
  intro x hx
  simp [hc x hx]

theorem newContent_remove_nil_of_subset (c keys : List String)
    (h : ∀ s ∈ c, s ∈ keys) : newContentOf c keys Op.REMOVE = [] := by
  unfold newContentOf
  rw [List.filter_eq_nil_iff]
  intro a ha
  simp [h a ha]

/-! ## Facts about `postRemoveStep`, `removeOp` and the file invariant -/

theorem readLines_congr (fs fs' : FS) (p : String) (h : fs p = fs' p) :
    readLines fs p = readLines fs' p := by
  unfold readLines
  rw [h]

theorem postRemoveStep_of_nil (fs : FS) (p del : String) (keys : List String)
    (h : newContentOf (readLines fs p) keys Op.REMOVE = []) :
    postRemoveStep fs p del keys = delete_git_file fs del := by
  have h2 : (update_git_file fs p keys Op.REMOVE).2 = [] := by
    rw [update_snd]
    exact h
  unfold postRemoveStep
  rw [if_pos h2, update_fst_of_nil fs p keys Op.REMOVE h]

theorem postRemoveStep_of_ne_nil (fs : FS) (p del : String) (keys : List String)
    (h : newContentOf (readLines fs p) keys Op.REMOVE ≠ []) :
    postRemoveStep fs p del keys =
      writeFile fs p (newContentOf (readLines fs p) keys Op.REMOVE) := by
  have h2 : (update_git_file fs p keys Op.REMOVE).2 ≠ [] := by
    rw [update_snd]
    exact h
  unfold postRemoveStep
  rw [if_neg h2, update_fst_of_ne_nil fs p keys Op.REMOVE h]

theorem postRemoveStep_other (fs : FS) (p del q : String) (keys : List String)
    (hq : q ≠ p) (hqd : q ≠ del) : postRemoveStep fs p del keys q = fs q := by
  unfold postRemoveStep
  split
  · rw [delete_other _ del q hqd, update_other fs p q keys Op.REMOVE hq]
  · exact update_other fs p q keys Op.REMOVE hq

theorem postRemoveStep_target (fs : FS) (p del : String) (keys : List String)
    (hdp : del ≠ p) :
    postRemoveStep fs p del keys del = none ∨
      postRemoveStep fs p del keys del = fs del := by
  unfold postRemoveStep
  split
  · exact Or.inl (delete_at _ del)
  · exact Or.inr (update_other fs p del keys Op.REMOVE hdp)

theorem removeOp_fst (fs : FS) (p : String) (keys : List String) :
    (removeOp fs p keys).1 = postRemoveStep fs p p keys := rfl

theorem removeOp_snd (fs : FS) (p : String) (keys : List String) :
    (removeOp fs p keys).2 = newContentOf (readLines fs p) keys Op.REMOVE :=
  update_snd fs p keys Op.REMOVE

theorem mk_injective : Function.Injective String.mk :=
  fun a b h => congrArg String.data h

theorem data_injective : Function.Injective String.data := by
  intro a b h
  cases a
  cases b
  exact congrArg String.mk h

theorem data_eq_nil_iff : ∀ s : String, s.data = [] ↔ s = ""
  | ⟨d⟩ => (mk_eq_empty_iff d).symm

theorem readLines_nodup_of_inv (fs : FS) (p : String) (hinv : fileInv fs p) :
    (readLines fs p).Nodup := by
  cases h : fs p with
  | none => rw [readLines_none fs p h]; exact List.nodup_nil
  | some cs =>
    rw [readLines_some fs p cs h]
    exact (((hinv cs h).1).map mk_injective).filter _

theorem readLines_ne_nil_of_inv (fs : FS) (p : String) (hinv : fileInv fs p)
    (cs : List Char) (h : fs p = some cs) : readLines fs p ≠ [] := by
  rw [readLines_some fs p cs h]
  cases hs : splitNl cs with
  | nil => exact absurd hs (splitNl_ne_nil cs)
  | cons hd tl =>
    have hhd : hd ≠ [] := (hinv cs h).2 hd (hs ▸ List.mem_cons_self hd tl)
    intro hcontra
    have hmem : String.mk hd ∈
        (((hd :: tl).map String.mk).filter (fun s => decide (s ≠ ""))) := by
      apply List.mem_filter.mpr
      refine ⟨List.mem_map_of_mem String.mk (List.mem_cons_self hd tl), ?_⟩
      simp [mk_eq_empty_iff, hhd]
    rw [hcontra] at hmem
    simp at hmem

theorem readLines_eq_nil_inv (fs : FS) (p : String) (hinv : fileInv fs p)
    (h : readLines fs p = []) : fs p = none := by
  cases hfs : fs p with
  | none => rfl
  | some cs => exact absurd h (readLines_ne_nil_of_inv fs p hinv cs hfs)

theorem writeFile_fileInv (fs : FS) (p : String) (r : List String)
    (hne : r ≠ []) (hr : ∀ s ∈ r, s ≠ "" ∧ '\n' ∉ s.data) (hnd : r.Nodup) :
    fileInv (writeFile fs p r) p := by
  intro cs hcs
  rw [writeFile_at] at hcs
  injection hcs with hcs
  subst hcs
  rw [splitNl_joinNl (r.map String.data) (by simpa using hne)
    (by
      intro l hl
      rcases List.mem_map.mp hl with ⟨s, hs, rfl⟩
      exact (hr s hs).2)]
  constructor
  · exact hnd.map data_injective
  · intro l hl
    rcases List.mem_map.mp hl with ⟨s, hs, rfl⟩
    intro hd
    exact (hr s hs).1 ((data_eq_nil_iff s).mp hd)

theorem fileInv_of_none (fs : FS) (p : String) (h : fs p = none) :
    fileInv fs p := by
  intro cs hcs
  rw [h] at hcs
  cases hcs

/-! ## Claim theorems -/

/-- C8: for every non-existent path and every set of entries to remove,
`update_git_file` with `REMOVE` returns the empty set and performs no file
operation: the filesystem is returned unchanged (no create, write or
delete). -/
theorem C8_remove_missing_noop (fs : FS) (p : String) (keys : List String)
    (h : fs p = none) :
    (update_git_file fs p keys Op.REMOVE).1 = fs
    ∧ (update_git_file fs p keys Op.REMOVE).2 = [] := by
  have hnil : newContentOf (readLines fs p) keys Op.REMOVE = [] := by
    rw [readLines_none fs p h]
    rfl
  exact ⟨update_fst_of_nil fs p keys Op.REMOVE hnil,
    by rw [update_snd]; exact hnil⟩

/-- Witness for C8 at the empty filesystem. -/
theorem C8_witness :
    fsEmpty "f" = none
    ∧ ((update_git_file fsEmpty "f" ["a"] Op.REMOVE).1 = fsEmpty
       ∧ (update_git_file fsEmpty "f" ["a"] Op.REMOVE).2 = []) :=
  ⟨rfl, C8_remove_missing_noop fsEmpty "f" ["a"] rfl⟩

/-- C4: for every path whose file has duplicate-free lines and every set of
entries to remove, `update_git_file` with `REMOVE` returns the existing
lines with the members of `keys` filtered out, preserving the original
relative order (no re-sorting). -/
theorem C4_remove_filters_in_order (fs : FS) (p : String) (keys : List String)
    (hnd : (readLines fs p).Nodup) :
    (update_git_file fs p keys Op.REMOVE).2
      = (readLines fs p).filter (fun line => decide (line ∉ keys)) := by
  rw [update_snd]
  exact newContent_remove_eq_filter _ _ (ne_empty_of_mem_readLines fs p)

/-- Witness for C4: file lines `["b", "a", "c"]`, removing `{"b"}`,
yields `["a", "c"]`. -/
theorem C4_witness :
    (readLines fsC4 "p4").Nodup
    ∧ (update_git_file fsC4 "p4" ["b"] Op.REMOVE).2 = ["a", "c"] :=
  ⟨by decide,
    (C4_remove_filters_in_order fsC4 "p4" ["b"] (by decide)).trans (by decide)⟩

/-- C2 as stated is false: `update_git_file` with `REMOVE` alone never
deletes the target file, so a file whose entries are all removed still
exists afterwards (here `"p"` holding `"a"`, removing `{"a"}`, yields the
empty set while the file remains). -/
theorem C2_counterexample :
    (update_git_file fsC2 "p" ["a"] Op.REMOVE).2 = []
    ∧ (update_git_file fsC2 "p" ["a"] Op.REMOVE).1 "p" = some ['a'] :=
  ⟨by decide, by decide⟩

/-- C2 (amended): when the `REMOVE` pass is followed by the caller-side
deletion on an empty result (`removeOp`, the pattern of
`Installer.uninstall`), an empty resulting set means the target file does
not exist afterwards, and a subsequent `SET` on the same path starts from
the empty entry set. -/
theorem C2_remove_empty_deletes (fs : FS) (p : String) (keys : List String)
    (h : (removeOp fs p keys).2 = []) :
    (removeOp fs p keys).1 p = none
    ∧ ∀ keys2, (applyOp (removeOp fs p keys).1 p keys2).2
        = List.insertionSort strRel keys2.dedup := by
  rw [removeOp_snd] at h
  have hfst : (removeOp fs p keys).1 p = none := by
    rw [removeOp_fst, postRemoveStep_of_nil fs p p keys h]
    exact delete_at fs p
  refine ⟨hfst, fun keys2 => ?_⟩
  rw [applyOp, update_snd, readLines_none _ p hfst]
  unfold newContentOf
  rw [List.nil_append]

/-- Witness for C2's amended theorem: removing `{"a"}` from a file holding
exactly `"a"` deletes it. -/
theorem C2_witness :
    (removeOp fsC2w "w2" ["a"]).2 = []
    ∧ ((removeOp fsC2w "w2" ["a"]).1 "w2" = none
       ∧ ∀ keys2, (applyOp (removeOp fsC2w "w2" ["a"]).1 "w2" keys2).2
           = List.insertionSort strRel keys2.dedup) :=
  ⟨by decide, C2_remove_empty_deletes fsC2w "w2" ["a"] (by decide)⟩

/-- C3: for every path and non-empty `keys`, `update_git_file` with `SET`
returns the lexicographically sorted, duplicate-free union of the file's
existing non-empty lines (none when the file is absent) with `keys`, and
writes exactly that union to the file, one entry per line with no trailing
separator. -/
theorem C3_apply_sorted_union (fs : FS) (p : String) (keys : List String)
    (hk : keys ≠ []) :
    List.Sorted (· < ·) (applyOp fs p keys).2
    ∧ (∀ s, s ∈ (applyOp fs p keys).2 ↔ s ∈ readLines fs p ∨ s ∈ keys)
    ∧ (applyOp fs p keys).1 p
        = some (joinNl (((applyOp fs p keys).2).map String.data)) := by
  have hne := newContent_set_ne_nil (readLines fs p) keys hk
  have hsnd : (applyOp fs p keys).2
      = newContentOf (readLines fs p) keys Op.SET := update_snd fs p keys Op.SET
  refine ⟨?_, ?_, ?_⟩
  · rw [hsnd]
    exact sorted_lt_newContent_set _ _
  · intro s
    rw [hsnd]
    exact mem_newContent_set _ _ s
  · rw [hsnd, applyOp, update_fst_of_ne_nil fs p keys Op.SET hne, writeFile_at]

/-- Witness for C3 on an absent file with `keys = ["y", "x"]`. -/
theorem C3_witness :
    (["y", "x"] : List String) ≠ []
    ∧ (List.Sorted (· < ·) (applyOp fsEmpty "f" ["y", "x"]).2
       ∧ (∀ s, s ∈ (applyOp fsEmpty "f" ["y", "x"]).2
            ↔ s ∈ readLines fsEmpty "f" ∨ s ∈ ["y", "x"])
       ∧ (applyOp fsEmpty "f" ["y", "x"]).1 "f"
           = some (joinNl (((applyOp fsEmpty "f" ["y", "x"]).2).map String.data))) :=
  ⟨by decide, C3_apply_sorted_union fsEmpty "f" ["y", "x"] (by decide)⟩

/-- C6 as stated is false: `update_git_file` with `REMOVE` can return the
empty set while leaving the target file in place (here `"q6"` holding
`"b"`, removing `{"b"}`), violating "if the resulting entry set is empty
the file does not exist". -/
theorem C6_counterexample :
    (update_git_file fsC6 "q6" ["b"] Op.REMOVE).2 = []
    ∧ (update_git_file fsC6 "q6" ["b"] Op.REMOVE).1 "q6" = some ['b'] :=
  ⟨by decide, by decide⟩

/-- C6 (amended): after a synchronization operation as the installer invokes
it (`SET` alone, or `REMOVE` followed by the caller-side deletion on an
empty result), on a path that satisfied the file invariant and with
single-line non-empty entries, the file invariant holds again — the file,
if it exists, has no duplicate and no empty lines — and an empty resulting
set implies the file does not exist. -/
theorem C6_sync_invariant (fs : FS) (p : String) (keys : List String) (op : Op)
    (hinv : fileInv fs p) (hkeys : ∀ e ∈ keys, e ≠ "" ∧ '\n' ∉ e.data) :
    fileInv (syncOp fs p keys op).1 p
    ∧ ((syncOp fs p keys op).2 = [] → (syncOp fs p keys op).1 p = none) := by
  cases op with
  | SET =>
    unfold syncOp
    by_cases hr : newContentOf (readLines fs p) keys Op.SET = []
    · have hfst := update_fst_of_nil fs p keys Op.SET hr
      have hcnil : readLines fs p = [] := by
        by_contra hc
        rcases List.exists_mem_of_ne_nil _ hc with ⟨x, hx⟩
        have hmem : x ∈ newContentOf (readLines fs p) keys Op.SET :=
          (mem_newContent_set _ _ x).mpr (Or.inl hx)
        rw [hr] at hmem
        simp at hmem
      have hnone : fs p = none := readLines_eq_nil_inv fs p hinv hcnil
      constructor
      · rw [hfst]
        exact hinv
      · intro _
        rw [hfst]
        exact hnone
    · have hfst := update_fst_of_ne_nil fs p keys Op.SET hr
      have hprops : ∀ s ∈ newContentOf (readLines fs p) keys Op.SET,
          s ≠ "" ∧ '\n' ∉ s.data := by
        intro s hs
        rcases (mem_newContent_set _ _ s).mp hs with h | h
        · exact ⟨ne_empty_of_mem_readLines fs p s h,
            no_newline_of_mem_readLines fs p s h⟩
        · exact hkeys s h
      constructor
      · rw [hfst]
        exact writeFile_fileInv fs p _ hr hprops (nodup_newContent_set _ _)
      · intro h2
        rw [update_snd] at h2
        exact absurd h2 hr
  | REMOVE =>
    unfold syncOp
    by_cases hr : newContentOf (readLines fs p) keys Op.REMOVE = []
    · have hfst : (removeOp fs p keys).1 = delete_git_file fs p := by
        rw [removeOp_fst, postRemoveStep_of_nil fs p p keys hr]
      constructor
      · rw [hfst]
        exact fileInv_of_none _ p (delete_at fs p)
      · intro _
        rw [hfst]
        exact delete_at fs p
    · have hfst : (removeOp fs p keys).1
          = writeFile fs p (newContentOf (readLines fs p) keys Op.REMOVE) := by
        rw [removeOp_fst, postRemoveStep_of_ne_nil fs p p keys hr]
      have hsubset : ∀ s ∈ newContentOf (readLines fs p) keys Op.REMOVE,
          s ∈ readLines fs p := by
        intro s hs
        unfold newContentOf at hs
        exact List.mem_of_mem_filter hs
      have hprops : ∀ s ∈ newContentOf (readLines fs p) keys Op.REMOVE,
          s ≠ "" ∧ '\n' ∉ s.data :=
        fun s hs => ⟨ne_empty_of_mem_readLines fs p s (hsubset s hs),
          no_newline_of_mem_readLines fs p s (hsubset s hs)⟩
      have hnd : (newContentOf (readLines fs p) keys Op.REMOVE).Nodup := by
        unfold newContentOf
        exact (readLines_nodup_of_inv fs p hinv).filter _
      constructor
      · rw [hfst]
        exact writeFile_fileInv fs p _ hr hprops hnd
      · intro h2
        rw [removeOp_snd] at h2
        exact absurd h2 hr

/-- Witness for C6's amended theorem: removing `{"gone"}` from a file
holding lines `keep` and `gone` leaves a file satisfying the invariant. -/
theorem C6_witness :
    fileInv fsC6w "w6"
    ∧ (∀ e ∈ (["gone"] : List String), e ≠ "" ∧ '\n' ∉ e.data)
    ∧ (fileInv (syncOp fsC6w "w6" ["gone"] Op.REMOVE).1 "w6"
       ∧ ((syncOp fsC6w "w6" ["gone"] Op.REMOVE).2 = []
           → (syncOp fsC6w "w6" ["gone"] Op.REMOVE).1 "w6" = none)) := by
  have hinv : fileInv fsC6w "w6" := by
    intro cs hcs
    have hcs2 : some ['k', 'e', 'e', 'p', '\n', 'g', 'o', 'n', 'e'] = some cs := hcs
    injection hcs2 with h3
    subst h3
    exact ⟨by decide, by decide⟩
  exact ⟨hinv, by decide,
    C6_sync_invariant fsC6w "w6" ["gone"] Op.REMOVE hinv (by decide)⟩

/-- C7: for every path and non-empty ruleset of single-line non-empty
entries, applying `SET` twice yields the same resulting entry set and the
same file contents (at every path) as applying it once. -/
theorem C7_apply_idempotent (fs : FS) (p : String) (keys : List String)
    (hk : keys ≠ []) (hkeys : ∀ e ∈ keys, e ≠ "" ∧ '\n' ∉ e.data) :
    (applyOp (applyOp fs p keys).1 p keys).2 = (applyOp fs p keys).2
    ∧ ∀ q, (applyOp (applyOp fs p keys).1 p keys).1 q = (applyOp fs p keys).1 q := by
  have hr1ne : newContentOf (readLines fs p) keys Op.SET ≠ [] :=
    newContent_set_ne_nil _ _ hk
  have hfs1 : (applyOp fs p keys).1
      = writeFile fs p (newContentOf (readLines fs p) keys Op.SET) :=
    update_fst_of_ne_nil fs p keys Op.SET hr1ne
  have hsnd1 : (applyOp fs p keys).2 = newContentOf (readLines fs p) keys Op.SET :=
    update_snd fs p keys Op.SET
  have hr1props : ∀ s ∈ newContentOf (readLines fs p) keys Op.SET,
      s ≠ "" ∧ '\n' ∉ s.data := by
    intro s hs
    rcases (mem_newContent_set _ _ s).mp hs with h | h
    · exact ⟨ne_empty_of_mem_readLines fs p s h, no_newline_of_mem_readLines fs p s h⟩
    · exact hkeys s h
  have hread : readLines (writeFile fs p (newContentOf (readLines fs p) keys Op.SET)) p
      = newContentOf (readLines fs p) keys Op.SET :=
    readLines_writeFile fs p _ hr1ne hr1props
  have hkeysub : ∀ k ∈ keys, k ∈ newContentOf (readLines fs p) keys Op.SET :=
    fun k hk2 => (mem_newContent_set _ _ k).mpr (Or.inr hk2)
  have hperm : ((newContentOf (readLines fs p) keys Op.SET ++ keys).dedup).Perm
      (newContentOf (readLines fs p) keys Op.SET) := by
    apply List.perm_of_nodup_nodup_toFinset_eq (List.nodup_dedup _)
      (nodup_newContent_set _ _)
    ext x
    simp only [List.mem_toFinset, List.mem_dedup, List.mem_append]
    constructor
    · intro h
      rcases h with h | h
      · exact h
      · exact hkeysub x h
    · exact Or.inl
  have heq : newContentOf (newContentOf (readLines fs p) keys Op.SET) keys Op.SET
      = newContentOf (readLines fs p) keys Op.SET := by
    haveI := isAntisymm_strRel
    exact List.eq_of_perm_of_sorted
      ((List.perm_insertionSort strRel _).trans hperm)
      (sorted_newContent_set _ _) (sorted_newContent_set _ _)
  have hsnd2 : (applyOp (applyOp fs p keys).1 p keys).2
      = newContentOf (readLines fs p) keys Op.SET := by
    rw [hfs1, applyOp, update_snd, hread, heq]
  refine ⟨by rw [hsnd2, hsnd1], fun q => ?_⟩
  by_cases hq : q = p
  · subst hq
    have hr2ne : newContentOf
        (readLines (writeFile fs q (newContentOf (readLines fs q) keys Op.SET)) q)
        keys Op.SET ≠ [] := by
      rw [hread, heq]
      exact hr1ne
    rw [hfs1, applyOp, update_fst_of_ne_nil _ _ _ _ hr2ne, writeFile_at, hread, heq,
      writeFile_at]
  · rw [hfs1, applyOp, update_other _ p q _ _ hq]

/-- Witness for C7 at the empty filesystem with `keys = ["x"]`. -/
theorem C7_witness :
    (["x"] : List String) ≠ []
    ∧ (∀ e ∈ (["x"] : List String), e ≠ "" ∧ '\n' ∉ e.data)
    ∧ ((applyOp (applyOp fsEmpty "f" ["x"]).1 "f" ["x"]).2
         = (applyOp fsEmpty "f" ["x"]).2
       ∧ ∀ q, (applyOp (applyOp fsEmpty "f" ["x"]).1 "f" ["x"]).1 q
           = (applyOp fsEmpty "f" ["x"]).1 q) :=
  ⟨by decide, by decide, C7_apply_idempotent fsEmpty "f" ["x"] (by decide) (by decide)⟩

/-- C5: for every non-empty ruleset of single-line non-empty entries applied
to an initially absent file, `SET` followed by `removeOp` with the same
ruleset leaves the entry set empty and the file deleted. -/
theorem C5_roundtrip_deletes (fs : FS) (p : String) (keys : List String)
    (h0 : fs p = none) (hk : keys ≠ [])
    (hkeys : ∀ e ∈ keys, e ≠ "" ∧ '\n' ∉ e.data) :
    (removeOp (applyOp fs p keys).1 p keys).2 = []
    ∧ (removeOp (applyOp fs p keys).1 p keys).1 p = none := by
  have hr1ne : newContentOf (readLines fs p) keys Op.SET ≠ [] :=
    newContent_set_ne_nil _ _ hk
  have hfs1 : (applyOp fs p keys).1
      = writeFile fs p (newContentOf (readLines fs p) keys Op.SET) :=
    update_fst_of_ne_nil fs p keys Op.SET hr1ne
  have hr1props : ∀ s ∈ newContentOf (readLines fs p) keys Op.SET,
      s ≠ "" ∧ '\n' ∉ s.data := by
    intro s hs
    rcases (mem_newContent_set _ _ s).mp hs with h | h
    · exact ⟨ne_empty_of_mem_readLines fs p s h, no_newline_of_mem_readLines fs p s h⟩
    · exact hkeys s h
  have hread : readLines (writeFile fs p (newContentOf (readLines fs p) keys Op.SET)) p
      = newContentOf (readLines fs p) keys Op.SET :=
    readLines_writeFile fs p _ hr1ne hr1props
  have hsub : ∀ s ∈ newContentOf (readLines fs p) keys Op.SET, s ∈ keys := by
    intro s hs
    rcases (mem_newContent_set _ _ s).mp hs with h | h
    · rw [readLines_none fs p h0] at h
      simp at h
    · exact h
  have hrem : newContentOf
      (readLines (writeFile fs p (newContentOf (readLines fs p) keys Op.SET)) p)
      keys Op.REMOVE = [] := by
    rw [hread]
    exact newContent_remove_nil_of_subset _ _ hsub
  constructor
  · rw [hfs1, removeOp_snd, hrem]
  · rw [hfs1, removeOp_fst, postRemoveStep_of_nil _ _ _ _ hrem]
    exact delete_at _ p

/-- Witness for C5 at the empty filesystem with `keys = ["y", "x"]`. -/
theorem C5_witness :
    fsEmpty "g" = none
    ∧ (["y", "x"] : List String) ≠ []
    ∧ (∀ e ∈ (["y", "x"] : List String), e ≠ "" ∧ '\n' ∉ e.data)
    ∧ ((removeOp (applyOp fsEmpty "g" ["y", "x"]).1 "g" ["y", "x"]).2 = []
       ∧ (removeOp (applyOp fsEmpty "g" ["y", "x"]).1 "g" ["y", "x"]).1 "g" = none) :=
  ⟨rfl, by decide, by decide,
    C5_roundtrip_deletes fsEmpty "g" ["y", "x"] rfl (by decide) (by decide)⟩

theorem uninstall_clean (fs2 : FS) (a i : String) (hne : a ≠ i)
    (hsub : ∀ s ∈ readLines fs2 a, s ∈ GIT_ATTRIBUTES) :
    uninstall fs2 a i a = none ∧ uninstall fs2 a i i = none := by
  have hrem1 : newContentOf (readLines fs2 a) GIT_ATTRIBUTES Op.REMOVE = [] :=
    newContent_remove_nil_of_subset _ _ hsub
  have hp1 : postRemoveStep fs2 a a GIT_ATTRIBUTES = delete_git_file fs2 a :=
    postRemoveStep_of_nil fs2 a a _ hrem1
  have hrem2 : newContentOf (readLines (delete_git_file fs2 a) a)
      GIT_IGNORE Op.REMOVE = [] := by
    rw [readLines_none _ a (delete_at fs2 a)]
    rfl
  have hp2 : postRemoveStep (delete_git_file fs2 a) a i GIT_IGNORE
      = delete_git_file (delete_git_file fs2 a) i :=
    postRemoveStep_of_nil _ a i _ hrem2
  have hfinal : uninstall fs2 a i = delete_git_file (delete_git_file fs2 a) i := by
    unfold uninstall
    rw [hp1, hp2]
  constructor
  · rw [hfinal, delete_other _ i a hne, delete_at]
  · rw [hfinal, delete_at]

/-- C1: for a global-scope install followed immediately by a global-scope
uninstall on the same two resolved paths, if neither target file existed
before (so nothing beyond the two rulesets is ever present in them), both
target files are absent after the uninstall. -/
theorem C1_install_uninstall_roundtrip (fs : FS) (a i : String)
    (ha : fs a = none) (hi : fs i = none) (hne : a ≠ i) :
    uninstall (install fs a i) a i a = none
    ∧ uninstall (install fs a i) a i i = none := by
  have hGAne : GIT_ATTRIBUTES ≠ [] := by decide
  have hGAprops : ∀ e ∈ GIT_ATTRIBUTES, e ≠ "" ∧ '\n' ∉ e.data := by decide
  have hrAne : newContentOf (readLines fs a) GIT_ATTRIBUTES Op.SET ≠ [] :=
    newContent_set_ne_nil _ _ hGAne
  have hfs1 : (update_git_file fs a GIT_ATTRIBUTES Op.SET).1
      = writeFile fs a (newContentOf (readLines fs a) GIT_ATTRIBUTES Op.SET) :=
    update_fst_of_ne_nil fs a _ _ hrAne
  have hrAprops : ∀ s ∈ newContentOf (readLines fs a) GIT_ATTRIBUTES Op.SET,
      s ≠ "" ∧ '\n' ∉ s.data := by
    intro s hs
    rcases (mem_newContent_set _ _ s).mp hs with h | h
    · exact ⟨ne_empty_of_mem_readLines fs a s h, no_newline_of_mem_readLines fs a s h⟩
    · exact hGAprops s h
  have hsubA : ∀ s ∈ newContentOf (readLines fs a) GIT_ATTRIBUTES Op.SET,
      s ∈ GIT_ATTRIBUTES := by
    intro s hs
    rcases (mem_newContent_set _ _ s).mp hs with h | h
    · rw [readLines_none fs a ha] at h
      simp at h
    · exact h
  have hia : install fs a i a
      = writeFile fs a (newContentOf (readLines fs a) GIT_ATTRIBUTES Op.SET) a := by
    unfold install
    rw [hfs1]
    exact update_other _ i a GIT_IGNORE Op.SET hne
  apply uninstall_clean (install fs a i) a i hne
  intro s hs
  rw [readLines_congr (install fs a i)
      (writeFile fs a (newContentOf (readLines fs a) GIT_ATTRIBUTES Op.SET)) a hia,
    readLines_writeFile fs a _ hrAne hrAprops] at hs
  exact hsubA s hs

/-- Witness for C1 at the empty filesystem. -/
theorem C1_witness :
    fsEmpty ".gitattributes" = none
    ∧ fsEmpty ".gitignore" = none
    ∧ (".gitattributes" : String) ≠ ".gitignore"
    ∧ (uninstall (install fsEmpty ".gitattributes" ".gitignore")
         ".gitattributes" ".gitignore" ".gitattributes" = none
       ∧ uninstall (install fsEmpty ".gitattributes" ".gitignore")
           ".gitattributes" ".gitignore" ".gitignore" = none) :=
  ⟨rfl, rfl, by decide,
    C1_install_uninstall_roundtrip fsEmpty ".gitattributes" ".gitignore"
      rfl rfl (by decide)⟩

/-- C10: during every uninstall the ignore target file is never rewritten in
place — the removal of the ignore ruleset runs against the attributes path
(source line 92) — so afterwards the ignore file is either deleted
(`none`) or byte-for-byte unchanged. -/
theorem C10_ignore_never_rewritten (fs : FS) (a i : String) (hne : a ≠ i) :
    uninstall fs a i i = none ∨ uninstall fs a i i = fs i := by
  have h1 : postRemoveStep fs a a GIT_ATTRIBUTES i = fs i :=
    postRemoveStep_other fs a a i GIT_ATTRIBUTES (Ne.symm hne) (Ne.symm hne)
  unfold uninstall
  rcases postRemoveStep_target (postRemoveStep fs a a GIT_ATTRIBUTES) a i
      GIT_IGNORE (Ne.symm hne) with h | h
  · exact Or.inl h
  · exact Or.inr (h.trans h1)

/-- Witness for C10 on a filesystem whose ignore file holds an unrelated
entry: the uninstall leaves it untouched or deletes it. -/
theorem C10_witness :
    ("a" : String) ≠ "b"
    ∧ (uninstall fsC2 "a" "b" "b" = none ∨ uninstall fsC2 "a" "b" "b" = fsC2 "b") :=
  ⟨by decide, C10_ignore_never_rewritten fsC2 "a" "b" (by decide)⟩

/-- C9: for both recognized modes, the constructor validation raises exactly
when the arguments are inconsistent with the scope: in global mode when a
(non-empty) repository path is supplied, and in local mode when no path is
supplied or the supplied path is not a Git repository; otherwise it
proceeds without raising. -/
theorem C9_init_validation (path : Option String) (isRepo : String → Bool)
    (h : path ≠ some "") :
    (installerInitRaises "global" path isRepo = true ↔ path ≠ none)
    ∧ (installerInitRaises "local" path isRepo = true
        ↔ (path = none ∨ isRepo (path.getD "") = false)) := by
  cases path with
  | none => simp [installerInitRaises, pathTruthy]
  | some s =>
    have hs : s ≠ "" := fun he => h (by rw [he])
    constructor
    · simp [installerInitRaises, pathTruthy, hs]
    · simp only [installerInitRaises, pathTruthy, Option.getD]
      by_cases hr : isRepo s <;> simp [hr, hs]

/-- Witness for C9 with a supplied path recognized as a Git repository. -/
theorem C9_witness :
    (some "/repo" : Option String) ≠ some ""
    ∧ ((installerInitRaises "global" (some "/repo") (fun _ => true) = true
          ↔ (some "/repo" : Option String) ≠ none)
       ∧ (installerInitRaises "local" (some "/repo") (fun _ => true) = true
          ↔ ((some "/repo" : Option String) = none
             ∨ (fun _ => true : String → Bool) ((some "/repo").getD "") = false))) :=
  ⟨by decide, C9_init_validation (some "/repo") (fun _ => true) (by decide)⟩

end GitXltrail
